import Mathlib

/-!
Verification of the kmhook-rs core: the `Shortcut` value type of `src/types.rs`
(parsing, equality, matching), the worker-side keyboard translation of
`src/windows/worker.rs`, and the listener facade of `src/windows/listener.rs`
(shortcut dispatch, hook recheck, duplicate detection, multi-press trigger gate).

Rust strings are embedded as `List Char`; the external key catalog (the
`keycode` library treated by the specification as an external collaborator) is
modelled from the specification on the finite set of keys this development
needs.
-/

namespace KMHook

/-- Modelled from the spec: the canonical key identifiers supplied by the
external KeyCatalog (the `keycode` library's `VirtualKeyId`), restricted to the
keys exercised here: the four modifier families, each with a generic and the
two sided variants, and a handful of normal (non-modifier) keys. -/
inductive VirtualKeyId where
  | Control | ControlLeft | ControlRight
  | Shift | ShiftLeft | ShiftRight
  | Alt | AltLeft | AltRight
  | Meta | MetaLeft | MetaRight
  | UsA | UsB | UsC | UsT | UsV | UsX | Escape
  deriving DecidableEq, Repr, Fintype

/-- Modelled from the spec: the USB HID modifier classification reported by the
KeyCatalog (`VirtualKeyId::modifier()`), `none` for normal keys.  A generic
modifier carries both side bits, so a sided bit-set is a subset of the generic
one (`ControlLeft` satisfies `Control` but not the other way around). -/
def VirtualKeyId.modifier : VirtualKeyId → Option Nat
  | .Control => some 0x11
  | .ControlLeft => some 0x01
  | .ControlRight => some 0x10
  | .Shift => some 0x22
  | .ShiftLeft => some 0x02
  | .ShiftRight => some 0x20
  | .Alt => some 0x44
  | .AltLeft => some 0x04
  | .AltRight => some 0x40
  | .Meta => some 0x88
  | .MetaLeft => some 0x08
  | .MetaRight => some 0x80
  | _ => none

/-- `KeyId::is_modifier` of `src/types.rs`: the key's modifier classification
is present. -/
def VirtualKeyId.is_modifier (k : VirtualKeyId) : Bool :=
  k.modifier.isSome

/-- The modifier bit-set of a key; `0` for a normal key (the source only reads
the bits of keys stored in a shortcut's `modifiers` list, which are always
classified as modifiers, so the default is never observed there). -/
def VirtualKeyId.modBits (k : VirtualKeyId) : Nat :=
  k.modifier.getD 0

/-- Modelled from the spec: USB HID usage codes of the normal keys, the values
placed in the normal-key slots of the usb input report. -/
def VirtualKeyId.usageCode : VirtualKeyId → Nat
  | .UsA => 4
  | .UsB => 5
  | .UsC => 6
  | .UsT => 23
  | .UsV => 25
  | .UsX => 27
  | .Escape => 41
  | _ => 0

/-- Modelled from the spec: the render name of each key
(`VirtualKeyId::to_string`, also the names accepted by
`VirtualKeyId::from_str`). -/
def VirtualKeyId.name : VirtualKeyId → List Char
  | .Control => "Control".data
  | .ControlLeft => "ControlLeft".data
  | .ControlRight => "ControlRight".data
  | .Shift => "Shift".data
  | .ShiftLeft => "ShiftLeft".data
  | .ShiftRight => "ShiftRight".data
  | .Alt => "Alt".data
  | .AltLeft => "AltLeft".data
  | .AltRight => "AltRight".data
  | .Meta => "Meta".data
  | .MetaLeft => "MetaLeft".data
  | .MetaRight => "MetaRight".data
  | .UsA => "UsA".data
  | .UsB => "UsB".data
  | .UsC => "UsC".data
  | .UsT => "UsT".data
  | .UsV => "UsV".data
  | .UsX => "UsX".data
  | .Escape => "Escape".data

/-- Every key of the modelled catalog. -/
def allKeys : List VirtualKeyId :=
  [.Control, .ControlLeft, .ControlRight, .Shift, .ShiftLeft, .ShiftRight,
   .Alt, .AltLeft, .AltRight, .Meta, .MetaLeft, .MetaRight,
   .UsA, .UsB, .UsC, .UsT, .UsV, .UsX, .Escape]

/-- Modelled from the spec: `VirtualKeyId::from_str`, the name lookup of the
external key catalog. -/
def vkFromStr (s : List Char) : Option VirtualKeyId :=
  allKeys.find? (fun k => k.name == s)

/-- Decidable equality for `Except`, so concrete parse results can be settled
by `decide`. -/
instance {ε α : Type} [DecidableEq ε] [DecidableEq α] : DecidableEq (Except ε α) := fun a b =>
  match a, b with
  | .error e, .error f =>
    if h : e = f then .isTrue (by rw [h]) else .isFalse (by intro hc; cases hc; exact h rfl)
  | .error _, .ok _ => .isFalse (by intro hc; cases hc)
  | .ok _, .error _ => .isFalse (by intro hc; cases hc)
  | .ok x, .ok y =>
    if h : x = y then .isTrue (by rw [h]) else .isFalse (by intro hc; cases hc; exact h rfl)

/-! ### Rust string primitives on `List Char` -/

/-- Rust `str::trim`: strip whitespace from both ends. -/
def trim (s : List Char) : List Char :=
  ((s.dropWhile Char.isWhitespace).reverse.dropWhile Char.isWhitespace).reverse

/-- Rust `str::split("+")`: split at every `'+'`, keeping empty pieces; always
returns at least one piece. -/
def splitPlus : List Char → List (List Char)
  | [] => [[]]
  | c :: rest =>
    if c = '+' then [] :: splitPlus rest
    else
      match splitPlus rest with
      | t :: ts => (c :: t) :: ts
      | [] => [[c]]

/-- Rust `[String]::join("+")` as used by `Display for Shortcut`. -/
def joinPlus : List (List Char) → List Char
  | [] => []
  | [x] => x
  | x :: xs => x ++ '+' :: joinPlus xs

/-- Fuelled worker for `replaceAll`; the fuel bounds the number of scanning
steps (one per character of the subject) so the recursion is structural. -/
def replaceAllFuel (pat repl : List Char) : Nat → List Char → List Char
  | 0, s => s
  | _ + 1, [] => []
  | fuel + 1, c :: rest =>
    if pat ≠ [] ∧ pat.isPrefixOf (c :: rest) then
      repl ++ replaceAllFuel pat repl fuel ((c :: rest).drop pat.length)
    else
      c :: replaceAllFuel pat repl fuel rest

/-- Rust `str::replace(pat, repl)`: replace every non-overlapping occurrence of
`pat`, scanning left to right. -/
def replaceAll (pat repl s : List Char) : List Char :=
  replaceAllFuel pat repl s.length s

/-! ### `Shortcut` (`src/types.rs`) -/

/-- `Shortcut` of `src/types.rs`: a list of modifier keys and an ordered list
of normal keys. -/
structure Shortcut where
  modifiers : List VirtualKeyId
  normal_keys : List VirtualKeyId
  deriving DecidableEq, Repr

/-- `Shortcut::default`. -/
def Shortcut.empty : Shortcut :=
  { modifiers := [], normal_keys := [] }

/-- `Shortcut::set_key`: a modifier-classified key is pushed onto `modifiers`
unless already present, any other key onto `normal_keys` unless already
present. -/
def Shortcut.set_key (s : Shortcut) (key : VirtualKeyId) : Shortcut :=
  if key.modifier.isSome then
    if s.modifiers.contains key then s
    else { s with modifiers := s.modifiers ++ [key] }
  else
    if s.normal_keys.contains key then s
    else { s with normal_keys := s.normal_keys ++ [key] }

/-- `Shortcut::remove_key`. -/
def Shortcut.remove_key (s : Shortcut) (key : VirtualKeyId) : Shortcut :=
  if key.modifier.isSome then
    { s with modifiers := s.modifiers.filter (fun k => k ≠ key) }
  else
    { s with normal_keys := s.normal_keys.filter (fun k => k ≠ key) }

/-- `Shortcut::new`: rejects an empty key list, otherwise folds `set_key` over
the keys starting from the default shortcut. -/
def Shortcut.new (keys : List VirtualKeyId) : Except (List Char) Shortcut :=
  if keys.isEmpty then .error ("Empty keys".data)
  else .ok (keys.foldl Shortcut.set_key Shortcut.empty)

/-- `Shortcut::normalize_key`: a single-character token is first looked up with
an `Us` prefix, then verbatim; a longer token goes through the alias
substring-replacement chain and is then looked up. -/
def normalize_key (key : List Char) : Except (List Char) VirtualKeyId :=
  if key.length = 1 then
    match vkFromStr ('U' :: 's' :: key) with
    | some k => .ok k
    | none =>
      match vkFromStr key with
      | some k => .ok k
      | none => .error ("Invalid key: ".data ++ key)
  else
    let key1 := replaceAll ("Ctrl".data) ("Control".data) key
    let key2 := replaceAll ("Menu".data) ("Alt".data) key1
    let key3 := replaceAll ("Win".data) ("Meta".data) key2
    let key4 := replaceAll ("Option".data) ("Alt".data) key3
    let key5 := replaceAll ("Cmd".data) ("Meta".data) key4
    let key6 := replaceAll ("Command".data) ("Meta".data) key5
    match vkFromStr key6 with
    | some k => .ok k
    | none => .error ("Invalid key: ".data ++ key6)

/-- The `collect::<Result<Vec<_>, _>>` step of `Shortcut::from_str`: normalize
every token, short-circuiting on the first failure. -/
def normalizeTokens : List (List Char) → Except (List Char) (List VirtualKeyId)
  | [] => .ok []
  | t :: ts =>
    match normalize_key t with
    | .error e => .error e
    | .ok k =>
      match normalizeTokens ts with
      | .error e => .error e
      | .ok ks => .ok (k :: ks)

/-- `Shortcut::from_str`: trim, split on `'+'`, normalize each token, then
build via `Shortcut::new`. -/
def Shortcut.from_str (keys : List Char) : Except (List Char) Shortcut :=
  match normalizeTokens (splitPlus (trim keys)) with
  | .error e => .error e
  | .ok ks => Shortcut.new ks

/-- `impl PartialEq for Shortcut`: modifier lists of equal length with every
`self` modifier occurring exactly once in `other`, and identical normal-key
lists. -/
def Shortcut.eq (a b : Shortcut) : Bool :=
  a.modifiers.length == b.modifiers.length &&
  a.modifiers.all (fun key => (b.modifiers.filter (fun k => k == key)).length == 1) &&
  a.normal_keys == b.normal_keys

/-- `impl Display for Shortcut`: the key names, modifiers first, joined
with `'+'`. -/
def Shortcut.display (s : Shortcut) : List Char :=
  joinPlus ((s.modifiers ++ s.normal_keys).map VirtualKeyId.name)

/-- `Shortcut::has_modifier`. -/
def Shortcut.has_modifier (s : Shortcut) : Bool :=
  s.modifiers.length > 0

/-- `Shortcut::has_normal_key`. -/
def Shortcut.has_normal_key (s : Shortcut) : Bool :=
  s.normal_keys.length > 0

/-- The 8-bit complement used by `is_match` (`!key_bits` on a `u8`). -/
def bitsNot8 (b : Nat) : Nat :=
  255 ^^^ b

/-- The per-modifier test of `Shortcut::is_match`:
`other_key_bits & !key_bits == 0`, i.e. `okey` is equal to `key` or more
specific. -/
def subsumes (okey key : VirtualKeyId) : Bool :=
  okey.modBits &&& bitsNot8 key.modBits == 0

/-- `Shortcut::is_match`: equal modifier counts, equal normal-key counts, each
`self` modifier matched by exactly one `other` modifier under `subsumes`, and
the zipped normal keys pairwise equal. -/
def Shortcut.is_match (a b : Shortcut) : Bool :=
  a.modifiers.length == b.modifiers.length &&
  a.normal_keys.length == b.normal_keys.length &&
  a.modifiers.all
    (fun key => (b.modifiers.filter (fun okey => subsumes okey key)).length == 1) &&
  (a.normal_keys.zip b.normal_keys).all (fun p => p.1 == p.2)

/-! ### Event model (`src/types.rs`) -/

/-- Handles are `usize` IDs. -/
abbrev ID := Nat

/-- `KeyState` of the keycode library: two-valued. -/
inductive KeyState where
  | Pressed
  | Released
  deriving DecidableEq, Repr

/-- Modelled from the spec: the KeyboardAggregate (keycode `KeyboardState`) is
the set of keys currently pressed, kept here as the press-ordered duplicate-free
list. -/
abbrev Aggregate := List VirtualKeyId

/-- Modelled from the spec: `KeyboardState::update_key` — a `Pressed`
transition inserts the key if absent, a `Released` transition removes it;
idempotent on equal transitions. -/
def updateKey (st : Aggregate) (key : VirtualKeyId) : KeyState → Aggregate
  | .Pressed => if st.contains key then st else st ++ [key]
  | .Released => st.filter (fun k => k ≠ key)

/-- `KeyInfo` of `src/types.rs`: the key, its transition, and the keyboard
aggregate after the transition. -/
structure KeyInfo where
  key_id : VirtualKeyId
  state : KeyState
  keyboard_state : Option Aggregate
  deriving DecidableEq, Repr

/-- `Pos` of `src/types.rs`. -/
structure Pos where
  x : Int
  y : Int
  deriving DecidableEq, Repr

/-- `MouseButton` of `src/types.rs`. -/
inductive MouseButton where
  | Left (s : KeyState)
  | Right (s : KeyState)
  | Middle (s : KeyState)
  | X1 (s : KeyState)
  | X2 (s : KeyState)
  deriving DecidableEq, Repr

/-- `MouseInfo` of `src/types.rs`. -/
structure MouseInfo where
  button : Option MouseButton
  pos : Pos
  relative_pos : Pos
  deriving DecidableEq, Repr

/-- `EventType` of `src/types.rs`; the `none` payloads are the kind selectors
used at subscription time. -/
inductive EventType where
  | KeyboardEvent (info : Option KeyInfo)
  | MouseEvent (info : Option MouseInfo)
  | All
  deriving DecidableEq, Repr

/-! ### USB input report (modelled from the spec) -/

/-- Modelled from the spec (`consts.rs` is not in the sources): the number of
normal-key slots of the usb input report, e.g. 6. -/
def MAX_KEYS : Nat := 6

/-- Modelled from the spec: `KeyboardState::usb_input_report` — the OR of the
modifier bits, a reserved byte, then the usage codes of the pressed normal keys
in order, padded with zeros to `MAX_KEYS` slots. -/
def usbReport (keys : List VirtualKeyId) : List Nat :=
  let mods := keys.filter (fun k => k.is_modifier)
  let norms := (keys.filter (fun k => !k.is_modifier)).take MAX_KEYS
  (mods.foldl (fun acc k => acc ||| k.modBits) 0) :: 0 ::
    (norms.map VirtualKeyId.usageCode ++ List.replicate (MAX_KEYS - norms.length) 0)

/-- The cached report of the pre-refactor `Shortcut` used by
`src/windows/listener.rs` (`Shortcut::usb_input`): the report of pressing all
of the shortcut's keys. -/
def Shortcut.usb_input (s : Shortcut) : List Nat :=
  usbReport (s.modifiers ++ s.normal_keys)

/-- `Shortcut::is_input_match` as used by `src/windows/listener.rs`: the
shortcut's cached usb report equals the given one. -/
def Shortcut.is_input_match (s : Shortcut) (usb : List Nat) : Bool :=
  s.usb_input == usb

/-- Modelled from the spec: `s.into_aggregate()` — the aggregate state holding
exactly the keys of `s`, re-pressed through `set_key` in render order. -/
def Shortcut.into_aggregate (s : Shortcut) : Shortcut :=
  (s.modifiers ++ s.normal_keys).foldl Shortcut.set_key Shortcut.empty

/-- Modelled from the spec: the keyboard aggregate viewed as a chord — the
snapshot attached to a `KeyInfo` in the post-refactor pipeline, built by
pressing the aggregate's keys through `set_key`. -/
def aggShortcut (ks : List VirtualKeyId) : Shortcut :=
  ks.foldl Shortcut.set_key Shortcut.empty

/-! ### Worker keyboard translation (`src/windows/worker.rs`) -/

/-- The Windows key-down message code. -/
def WM_KEYDOWN : Nat := 0x0100

/-- The Windows system-key-down message code. -/
def WM_SYSKEYDOWN : Nat := 0x0104

/-- The state decode of `KeyboardSysMsg::translate_msg`: `WM_KEYDOWN` and
`WM_SYSKEYDOWN` are presses, everything else a release. -/
def keyStateOfWm (wm : Nat) : KeyState :=
  if wm = WM_KEYDOWN ∨ wm = WM_SYSKEYDOWN then .Pressed else .Released

/-- `KeyboardSysMsg::translate_msg` after the OS key-code decode succeeded:
update the thread-local aggregate, drop the message when the aggregate is
unchanged, otherwise emit the event carrying the post-update snapshot.  Returns
the emitted event (if any) and the new thread-local aggregate. -/
def translate_msg (st : Aggregate) (keyid : VirtualKeyId) (wm : Nat) :
    Option EventType × Aggregate :=
  let key_state := keyStateOfWm wm
  let newSt := updateKey st keyid key_state
  if st = newSt then (none, newSt)
  else (some (.KeyboardEvent (some ⟨keyid, key_state, some newSt⟩)), newSt)

/-! ### Listener dispatch (`src/windows/listener.rs`) -/

/-- The subscription filter condition of `Listener::filter_events` /
`Listener::on_event`: selector `All`, or equal sum-type discriminants. -/
def selectorMatches (sel et : EventType) : Bool :=
  match sel, et with
  | .All, _ => true
  | .KeyboardEvent _, .KeyboardEvent _ => true
  | .MouseEvent _, .MouseEvent _ => true
  | _, _ => false

/-- `Listener::filter_events`: the subscriptions whose selector fires on the
event, in table order. -/
def filter_events (subs : List (ID × EventType)) (et : EventType) :
    List (ID × EventType) :=
  subs.filter (fun p => selectorMatches p.2 et)

/-- The scan inside `Listener::filter_shortcut`: find the first binding whose
cached usb report equals the snapshot's; if that binding mixes a modifier and a
normal key while the transition key is itself a modifier, the whole scan
returns nothing. -/
def findShortcut (bindings : List (ID × Shortcut)) (usb : List Nat)
    (keyid : VirtualKeyId) : Option ID :=
  match bindings with
  | [] => none
  | (id, sc) :: rest =>
    if sc.is_input_match usb then
      if sc.has_modifier && sc.has_normal_key && keyid.is_modifier then none
      else some id
    else findShortcut rest usb keyid

/-- `Listener::filter_shortcut`: only a pressed keyboard event carrying a
snapshot can select a shortcut callback; the callback is identified by its
binding ID. -/
def filter_shortcut (bindings : List (ID × Shortcut)) (et : EventType) :
    Option ID :=
  match et with
  | .KeyboardEvent (some key_info) =>
    if key_info.state ≠ .Pressed then none
    else
      match key_info.keyboard_state with
      | some ks => findShortcut bindings (usbReport ks) key_info.key_id
      | none => none
  | _ => none

/-- `Listener::on_event`: the IDs of the subscriptions invoked and the ID of
the shortcut binding whose trigger-wrapped callback is invoked, if any. -/
def on_event (subs : List (ID × EventType)) (bindings : List (ID × Shortcut))
    (et : EventType) : List ID × Option ID :=
  ((filter_events subs et).map (fun p => p.1), filter_shortcut bindings et)

/-! ### Hook recheck (`src/windows/listener.rs`, `EventLoop::recheck_hook`) -/

/-- The subscription loop of `EventLoop::recheck_hook`: `All` sets both flags
and breaks, keyboard and mouse selectors set their flag, and the loop breaks
early once both flags hold. -/
def recheckLoop : List EventType → Bool → Bool → Bool × Bool
  | [], kb, ms => (kb, ms)
  | sel :: rest, kb, ms =>
    match sel with
    | .All => (true, true)
    | .KeyboardEvent _ => if ms then (true, ms) else recheckLoop rest true ms
    | .MouseEvent _ => if kb then (kb, true) else recheckLoop rest kb true

/-- `EventLoop::recheck_hook` as written: after the subscription loop the
keyboard flag is overwritten by `shortcut_map.len() > 0`, so only the mouse
flag of the loop survives. -/
def recheck_flags (subs : List (ID × EventType)) (shortcutCount : Nat) :
    Bool × Bool :=
  let flags := recheckLoop (subs.map (fun p => p.2)) false false
  (decide (shortcutCount > 0), flags.2)

/-- Modelled from the spec: the intended hook-need computation —
`has_keyboard` ⇔ a shortcut binding exists OR a subscription selector is
`KeyboardEvent(_)` or `All`; `has_mouse` ⇔ a subscription selector is
`MouseEvent(_)` or `All`. -/
def recheck_flags_spec (subs : List (ID × EventType)) (shortcutCount : Nat) :
    Bool × Bool :=
  (decide (shortcutCount > 0) ||
     subs.any (fun p =>
       match p.2 with
       | .KeyboardEvent _ => true
       | .All => true
       | _ => false),
   subs.any (fun p =>
     match p.2 with
     | .MouseEvent _ => true
     | .All => true
     | _ => false))

/-! ### Shortcut registration (`src/windows/listener.rs`) -/

/-- `Listener::add_global_shortcut`: with `id` the freshly generated handle,
fail when some bound shortcut's report matches the new shortcut's report,
otherwise insert.  Returns the new table and the result. -/
def add_global_shortcut (table : List (ID × Shortcut)) (id : ID)
    (sc : Shortcut) : List (ID × Shortcut) × Except (List Char) ID :=
  if table.any (fun p => p.2.is_input_match sc.usb_input) then
    (table, .error ("Shortcut already exists".data))
  else (table ++ [(id, sc)], .ok id)

/-- `Listener::del_event_by_id`: remove the ID from the subscription and the
shortcut tables. -/
def del_event_by_id (subs : List (ID × EventType))
    (bindings : List (ID × Shortcut)) (id : ID) :
    List (ID × EventType) × List (ID × Shortcut) :=
  (subs.filter (fun p => p.1 ≠ id), bindings.filter (fun p => p.1 ≠ id))

/-! ### Multi-press trigger gate (`src/windows/listener.rs`) -/

/-- Modelled from the spec (`consts.rs` is not in the sources): the default
multi-press window in milliseconds. -/
def DEFAULT_SHORTCUT_TRIGGER_INTERVAL : Nat := 400

/-- `ShortcutTriggerInfo`: the per-binding press counter and the instant of
the last firing, in milliseconds. -/
structure ShortcutTriggerInfo where
  trigger : Nat
  last_trigger_time : Nat
  deriving DecidableEq, Repr

/-- One firing of the closure built by `Listener::add_global_shortcut_trigger`
at time `now`: a zero counter or a gap below the window increments, otherwise
the counter restarts at one; reaching `required` resets the counter and invokes
the user callback (the returned flag). -/
def triggerGateStep (required window : Nat) (st : ShortcutTriggerInfo)
    (now : Nat) : ShortcutTriggerInfo × Bool :=
  let elapsed := now - st.last_trigger_time
  let st1 : ShortcutTriggerInfo :=
    if st.trigger = 0 ∨ elapsed < window then ⟨st.trigger + 1, now⟩
    else ⟨1, now⟩
  if st1.trigger ≥ required then (⟨0, now⟩, true) else (st1, false)

/-- The gate over a sequence of firing instants; returns the final state and
the per-firing invocation flags. -/
def triggerGateRun (required window : Nat) :
    ShortcutTriggerInfo → List Nat → ShortcutTriggerInfo × List Bool
  | st, [] => (st, [])
  | st, t :: ts =>
    let step := triggerGateStep required window st t
    let rest := triggerGateRun required window step.1 ts
    (rest.1, step.2 :: rest.2)

/-! ### The shortcut representation invariant -/

/-- The invariant of `Shortcut` maintained by `new`/`set_key`/`remove_key`:
`modifiers` holds only modifier-classified keys, `normal_keys` only normal
keys, and neither list repeats a key. -/
def ValidS (s : Shortcut) : Prop :=
  (∀ k ∈ s.modifiers, k.is_modifier = true) ∧
  (∀ k ∈ s.normal_keys, k.is_modifier = false) ∧
  s.modifiers.Nodup ∧ s.normal_keys.Nodup

instance (s : Shortcut) : Decidable (ValidS s) := by
  unfold ValidS; infer_instance

theorem valid_empty : ValidS Shortcut.empty := by
  refine ⟨?_, ?_, ?_, ?_⟩ <;> simp [Shortcut.empty]

theorem set_key_of_modifier (s : Shortcut) (k : VirtualKeyId)
    (hk : k.is_modifier = true) :
    s.set_key k =
      if s.modifiers.contains k then s
      else { s with modifiers := s.modifiers ++ [k] } := by
  simp only [Shortcut.set_key, VirtualKeyId.is_modifier] at hk ⊢
  rw [if_pos hk]

theorem set_key_of_normal (s : Shortcut) (k : VirtualKeyId)
    (hk : k.is_modifier = false) :
    s.set_key k =
      if s.normal_keys.contains k then s
      else { s with normal_keys := s.normal_keys ++ [k] } := by
  simp only [Shortcut.set_key, VirtualKeyId.is_modifier] at hk ⊢
  rw [if_neg (by simp [Option.isSome_iff_exists] at hk ⊢; intro x hx; simp [hx] at hk)]

theorem valid_set_key (s : Shortcut) (k : VirtualKeyId) (h : ValidS s) :
    ValidS (s.set_key k) := by
  obtain ⟨hm, hn, hdm, hdn⟩ := h
  by_cases hk : k.is_modifier = true
  · rw [set_key_of_modifier s k hk]
    by_cases hc : s.modifiers.contains k
    · rw [if_pos hc]; exact ⟨hm, hn, hdm, hdn⟩
    · rw [if_neg hc]
      refine ⟨?_, hn, ?_, hdn⟩
      · intro x hx
        rcases List.mem_append.mp hx with h1 | h1
        · exact hm x h1
        · simp at h1; simpa [h1]
      · replace hc : k ∉ s.modifiers := by simpa using hc
        exact List.Nodup.append hdm (List.nodup_singleton k)
            (by simpa [List.disjoint_singleton] using hc)
  · replace hk : k.is_modifier = false := by simpa using hk
    rw [set_key_of_normal s k hk]
    by_cases hc : s.normal_keys.contains k
    · rw [if_pos hc]; exact ⟨hm, hn, hdm, hdn⟩
    · rw [if_neg hc]
      refine ⟨hm, ?_, hdm, ?_⟩
      · intro x hx
        rcases List.mem_append.mp hx with h1 | h1
        · exact hn x h1
        · simp at h1; simpa [h1]
      · replace hc : k ∉ s.normal_keys := by simpa using hc
        exact List.Nodup.append hdn (List.nodup_singleton k)
            (by simpa [List.disjoint_singleton] using hc)

theorem valid_foldl_set_key (ks : List VirtualKeyId) :
    ∀ s : Shortcut, ValidS s → ValidS (ks.foldl Shortcut.set_key s) := by
  induction ks with
  | nil => intro s h; simpa using h
  | cons k ks ih =>
    intro s h
    simpa using ih (s.set_key k) (valid_set_key s k h)

theorem valid_new (ks : List VirtualKeyId) (s : Shortcut)
    (h : Shortcut.new ks = .ok s) : ValidS s := by
  unfold Shortcut.new at h
  by_cases he : ks.isEmpty
  · rw [if_pos he] at h; cases h
  · rw [if_neg he] at h
    cases h
    exact valid_foldl_set_key ks Shortcut.empty valid_empty

theorem valid_from_str (inp : List Char) (s : Shortcut)
    (h : Shortcut.from_str inp = .ok s) : ValidS s := by
  unfold Shortcut.from_str at h
  cases hn : normalizeTokens (splitPlus (trim inp)) with
  | error e => rw [hn] at h; cases h
  | ok ks => rw [hn] at h; exact valid_new ks s h

theorem mem_set_key_self (s : Shortcut) (k : VirtualKeyId) :
    k ∈ (s.set_key k).modifiers ∨ k ∈ (s.set_key k).normal_keys := by
  by_cases hk : k.modifier.isSome
  · left
    simp only [Shortcut.set_key, if_pos hk]
    by_cases hc : s.modifiers.contains k
    · rw [if_pos hc]; exact List.elem_iff.mp hc
    · rw [if_neg hc]; simp
  · right
    simp only [Shortcut.set_key, if_neg hk]
    by_cases hc : s.normal_keys.contains k
    · rw [if_pos hc]; exact List.elem_iff.mp hc
    · rw [if_neg hc]; simp

theorem mem_set_key_mono (s : Shortcut) (k x : VirtualKeyId)
    (h : x ∈ s.modifiers ∨ x ∈ s.normal_keys) :
    x ∈ (s.set_key k).modifiers ∨ x ∈ (s.set_key k).normal_keys := by
  simp only [Shortcut.set_key]
  rcases h with h | h <;>
    [left; right] <;>
    split <;> split <;> simp_all

theorem foldl_set_key_nonempty (ks : List VirtualKeyId) :
    ∀ s : Shortcut, ks ≠ [] →
      (ks.foldl Shortcut.set_key s).modifiers ≠ [] ∨
      (ks.foldl Shortcut.set_key s).normal_keys ≠ [] := by
  induction ks with
  | nil => intro s h; exact absurd rfl h
  | cons k ks ih =>
    intro s _
    have hmem : k ∈ (s.set_key k).modifiers ∨ k ∈ (s.set_key k).normal_keys :=
      mem_set_key_self s k
    rcases Decidable.em (ks = []) with he | he
    · subst he
      rcases hmem with h | h <;> [left; right] <;>
        simp only [List.foldl_cons, List.foldl_nil] <;>
        exact List.ne_nil_of_mem h
    · have := ih (s.set_key k) he
      simpa using this

/-- Folding `set_key` over fresh, duplicate-free modifier keys appends them. -/
theorem foldl_set_key_mods (mods : List VirtualKeyId) :
    ∀ s : Shortcut, (∀ k ∈ mods, k.is_modifier = true) → mods.Nodup →
      (∀ k ∈ mods, k ∉ s.modifiers) →
      mods.foldl Shortcut.set_key s =
        { s with modifiers := s.modifiers ++ mods } := by
  induction mods with
  | nil => intro s _ _ _; simp
  | cons k ks ih =>
    intro s hmod hnd hfresh
    have hk : k.is_modifier = true := hmod k (by simp)
    have hstep : s.set_key k = { s with modifiers := s.modifiers ++ [k] } := by
      rw [set_key_of_modifier s k hk,
          if_neg (by simpa using hfresh k (by simp))]
    rw [List.foldl_cons, hstep,
        ih { s with modifiers := s.modifiers ++ [k] }
          (fun x hx => hmod x (by simp [hx]))
          (List.Nodup.of_cons hnd)
          (by
            intro x hx
            simp only [List.mem_append, List.mem_singleton, not_or]
            refine ⟨hfresh x (by simp [hx]), ?_⟩
            intro hxe
            exact (List.nodup_cons.mp hnd).1 (hxe ▸ hx))]
    simp

/-- Folding `set_key` over fresh, duplicate-free normal keys appends them. -/
theorem foldl_set_key_norms (norms : List VirtualKeyId) :
    ∀ s : Shortcut, (∀ k ∈ norms, k.is_modifier = false) → norms.Nodup →
      (∀ k ∈ norms, k ∉ s.normal_keys) →
      norms.foldl Shortcut.set_key s =
        { s with normal_keys := s.normal_keys ++ norms } := by
  induction norms with
  | nil => intro s _ _ _; simp
  | cons k ks ih =>
    intro s hnorm hnd hfresh
    have hk : k.is_modifier = false := hnorm k (by simp)
    have hstep : s.set_key k = { s with normal_keys := s.normal_keys ++ [k] } := by
      rw [set_key_of_normal s k hk,
          if_neg (by simpa using hfresh k (by simp))]
    rw [List.foldl_cons, hstep,
        ih { s with normal_keys := s.normal_keys ++ [k] }
          (fun x hx => hnorm x (by simp [hx]))
          (List.Nodup.of_cons hnd)
          (by
            intro x hx
            simp only [List.mem_append, List.mem_singleton, not_or]
            refine ⟨hfresh x (by simp [hx]), ?_⟩
            intro hxe
            exact (List.nodup_cons.mp hnd).1 (hxe ▸ hx))]
    simp

/-- On a shortcut satisfying the representation invariant, re-pressing its own
keys reproduces it exactly. -/
theorem into_aggregate_eq_self (s : Shortcut) (h : ValidS s) :
    s.into_aggregate = s := by
  obtain ⟨hm, hn, hdm, hdn⟩ := h
  unfold Shortcut.into_aggregate
  rw [List.foldl_append,
      foldl_set_key_mods s.modifiers Shortcut.empty hm hdm
        (by intro k _; simp [Shortcut.empty]),
      foldl_set_key_norms s.normal_keys _ hn hdn
        (by intro k _; simp [Shortcut.empty])]
  simp [Shortcut.empty]

/-! ### Parsing the rendered shortcut back -/

theorem normalize_key_name : ∀ k : VirtualKeyId, normalize_key k.name = .ok k := by
  decide

theorem name_plus_free :
    ∀ k : VirtualKeyId, (k.name.all (fun c => c ≠ '+')) = true := by
  decide

theorem name_ws_free :
    ∀ k : VirtualKeyId, (k.name.all (fun c => !c.isWhitespace)) = true := by
  decide

theorem name_ne_nil : ∀ k : VirtualKeyId, k.name ≠ [] := by
  decide

theorem dropWhile_eq_self_of_none (p : Char → Bool) (l : List Char)
    (h : ∀ c ∈ l, p c = false) : l.dropWhile p = l := by
  cases l with
  | nil => rfl
  | cons c rest => rw [List.dropWhile_cons, h c (by simp)]; simp

theorem trim_eq_self (l : List Char)
    (h : ∀ c ∈ l, c.isWhitespace = false) : trim l = l := by
  unfold trim
  rw [dropWhile_eq_self_of_none _ l h,
      dropWhile_eq_self_of_none _ l.reverse (fun c hc => h c (List.mem_reverse.mp hc)),
      List.reverse_reverse]

theorem splitPlus_ne_nil : ∀ s : List Char, splitPlus s ≠ [] := by
  intro s
  induction s with
  | nil => simp [splitPlus]
  | cons c rest ih =>
    simp only [splitPlus]
    split
    · simp
    · cases h : splitPlus rest with
      | nil => exact absurd h ih
      | cons t ts => simp [h]

theorem splitPlus_no_plus (n : List Char) (h : ∀ c ∈ n, c ≠ '+') :
    splitPlus n = [n] := by
  induction n with
  | nil => rfl
  | cons c rest ih =>
    simp only [splitPlus]
    rw [if_neg (h c (by simp)), ih (fun x hx => h x (by simp [hx]))]

theorem splitPlus_append_plus (n l : List Char) (h : ∀ c ∈ n, c ≠ '+') :
    splitPlus (n ++ '+' :: l) = n :: splitPlus l := by
  induction n with
  | nil => simp [splitPlus]
  | cons c rest ih =>
    have hrec := ih (fun x hx => h x (by simp [hx]))
    simp only [List.cons_append, splitPlus]
    rw [if_neg (h c (by simp))]
    simp only [List.append_eq] at hrec ⊢
    rw [hrec]

theorem splitPlus_joinPlus (ns : List (List Char)) (hne : ns ≠ [])
    (h : ∀ n ∈ ns, ∀ c ∈ n, c ≠ '+') :
    splitPlus (joinPlus ns) = ns := by
  induction ns with
  | nil => exact absurd rfl hne
  | cons n rest ih =>
    cases rest with
    | nil => exact splitPlus_no_plus n (h n (by simp))
    | cons m rest2 =>
      show splitPlus (n ++ '+' :: joinPlus (m :: rest2)) = n :: (m :: rest2)
      rw [splitPlus_append_plus n _ (h n (by simp)),
          ih (by simp) (fun x hx c hc => h x (by simp [hx]) c hc)]

theorem mem_joinPlus (ns : List (List Char)) (c : Char)
    (h : c ∈ joinPlus ns) : c = '+' ∨ ∃ n ∈ ns, c ∈ n := by
  induction ns with
  | nil => cases h
  | cons n rest ih =>
    cases rest with
    | nil => exact Or.inr ⟨n, by simp, h⟩
    | cons m rest2 =>
      rcases List.mem_append.mp h with h1 | h1
      · exact Or.inr ⟨n, by simp, h1⟩
      · rcases List.mem_cons.mp h1 with h2 | h2
        · exact Or.inl h2
        · rcases ih h2 with h3 | ⟨x, hx, hcx⟩
          · exact Or.inl h3
          · exact Or.inr ⟨x, by simp [List.mem_cons.mpr (Or.inr hx)], hcx⟩

theorem normalizeTokens_map_name (keys : List VirtualKeyId) :
    normalizeTokens (keys.map VirtualKeyId.name) = .ok keys := by
  induction keys with
  | nil => rfl
  | cons k rest ih =>
    simp only [List.map_cons, normalizeTokens, normalize_key_name k, ih]

/-- Re-parsing the rendering of a valid, non-empty shortcut yields it back. -/
theorem from_str_display (s : Shortcut) (h : ValidS s)
    (hne : s.modifiers ++ s.normal_keys ≠ []) :
    Shortcut.from_str s.display = .ok s := by
  unfold Shortcut.from_str Shortcut.display
  have hmapne : (s.modifiers ++ s.normal_keys).map VirtualKeyId.name ≠ [] := by
    simpa using hne
  have htrim :
      trim (joinPlus ((s.modifiers ++ s.normal_keys).map VirtualKeyId.name)) =
        joinPlus ((s.modifiers ++ s.normal_keys).map VirtualKeyId.name) := by
    refine trim_eq_self _ ?_
    intro c hc
    rcases mem_joinPlus _ c hc with h1 | ⟨n, hn, hcn⟩
    · subst h1; rfl
    · rcases List.mem_map.mp hn with ⟨k, _, hk⟩
      have hall := name_ws_free k
      rw [List.all_eq_true] at hall
      have := hall c (by rw [hk]; exact hcn)
      simpa using this
  rw [htrim,
      splitPlus_joinPlus _ hmapne
        (by
          intro n hn c hc
          rcases List.mem_map.mp hn with ⟨k, _, hk⟩
          have hall := name_plus_free k
          rw [List.all_eq_true] at hall
          have := hall c (by rw [hk]; exact hc)
          simpa using this),
      normalizeTokens_map_name]
  show Shortcut.new (s.modifiers ++ s.normal_keys) = .ok s
  unfold Shortcut.new
  rw [if_neg (by simpa using hne)]
  have hfold :
      (s.modifiers ++ s.normal_keys).foldl Shortcut.set_key Shortcut.empty = s := by
    have hagg := into_aggregate_eq_self s h
    unfold Shortcut.into_aggregate at hagg
    exact hagg
  rw [hfold]

/-! ### Equality and matching lemmas -/

theorem filter_beq_length (l : List VirtualKeyId) (key : VirtualKeyId) :
    (l.filter (fun k => k == key)).length = l.count key := by
  rw [List.count, List.countP_eq_length_filter]

theorem eq_refl_of_valid (s : Shortcut) (h : ValidS s) :
    Shortcut.eq s s = true := by
  obtain ⟨_, _, hdm, _⟩ := h
  unfold Shortcut.eq
  rw [Bool.and_eq_true, Bool.and_eq_true]
  refine ⟨⟨by simp, ?_⟩, by simp⟩
  rw [List.all_eq_true]
  intro key hk
  have h1 : (s.modifiers.filter (fun k => k == key)).length = 1 := by
    rw [filter_beq_length]
    exact List.count_eq_one_of_mem hdm hk
  simpa using h1

/-- Under duplicate-freeness of the left modifier list, the coded equality is
exactly: modifier lists equal as multisets, normal-key lists equal. -/
theorem eq_iff_perm (a b : Shortcut) (hnd : a.modifiers.Nodup) :
    Shortcut.eq a b = true ↔
      (a.modifiers.Perm b.modifiers ∧ a.normal_keys = b.normal_keys) := by
  unfold Shortcut.eq
  simp only [Bool.and_eq_true, List.all_eq_true, beq_iff_eq]
  constructor
  · rintro ⟨⟨hlen, hcount⟩, hnorm⟩
    refine ⟨?_, hnorm⟩
    have hsub : a.modifiers ⊆ b.modifiers := by
      intro x hx
      have h1 := hcount x hx
      rw [filter_beq_length] at h1
      exact List.count_pos_iff.mp (by omega)
    exact (List.Nodup.subperm hnd hsub).perm_of_length_le (le_of_eq hlen.symm)
  · rintro ⟨hperm, hnorm⟩
    refine ⟨⟨hperm.length_eq, ?_⟩, hnorm⟩
    intro key hk
    rw [filter_beq_length, ← hperm.count_eq]
    exact List.count_eq_one_of_mem hnd hk

theorem zip_all_iff_eq (l1 : List VirtualKeyId) :
    ∀ l2 : List VirtualKeyId,
      (l1.length = l2.length ∧ ∀ p ∈ l1.zip l2, p.1 = p.2) ↔ l1 = l2 := by
  induction l1 with
  | nil =>
    intro l2
    cases l2 <;> simp
  | cons x xs ih =>
    intro l2
    cases l2 with
    | nil => simp
    | cons y ys =>
      constructor
      · rintro ⟨hlen, hall⟩
        have hx : x = y := hall (x, y) (by simp)
        have := (ih ys).mp ⟨by simpa using hlen,
          fun p hp => hall p (by simp [hp])⟩
        simp [hx, this]
      · intro he
        cases he
        refine ⟨rfl, ?_⟩
        intro p hp
        simp only [List.zip_cons_cons, List.mem_cons] at hp
        rcases hp with h1 | h1
        · rw [h1]
        · exact ((ih xs).mpr rfl).2 p h1

/-- `is_match` characterized: equal modifier counts, the per-modifier
exactly-one-subsuming rule, and identical normal-key lists. -/
theorem is_match_iff (a b : Shortcut) :
    a.is_match b = true ↔
      (a.modifiers.length = b.modifiers.length ∧
       (∀ key ∈ a.modifiers,
          (b.modifiers.filter (fun okey => subsumes okey key)).length = 1) ∧
       a.normal_keys = b.normal_keys) := by
  unfold Shortcut.is_match
  simp only [Bool.and_eq_true, List.all_eq_true, beq_iff_eq]
  constructor
  · rintro ⟨⟨⟨hml, hnl⟩, hcnt⟩, hzip⟩
    exact ⟨hml, hcnt, (zip_all_iff_eq _ _).mp ⟨hnl, hzip⟩⟩
  · rintro ⟨hml, hcnt, hnorm⟩
    have hz := (zip_all_iff_eq a.normal_keys b.normal_keys).mpr hnorm
    exact ⟨⟨⟨hml, hnorm ▸ rfl⟩, hcnt⟩, hz.2⟩

theorem subsumes_self : ∀ k : VirtualKeyId, subsumes k k = true := by
  decide

/-- When no other modifier of the list subsumes `key`, the `is_match` filter
keeps exactly `key`. -/
theorem filter_subsumes_self (mods : List VirtualKeyId) (key : VirtualKeyId)
    (hmem : key ∈ mods) (hnd : mods.Nodup)
    (hno : ∀ m2 ∈ mods, m2 ≠ key → subsumes m2 key = false) :
    (mods.filter (fun okey => subsumes okey key)).length = 1 := by
  have hcongr : mods.filter (fun okey => subsumes okey key) =
      mods.filter (fun okey => okey == key) := by
    apply List.filter_congr
    intro x hx
    by_cases hxk : x = key
    · subst hxk; simp [subsumes_self x]
    · simp [hno x hx hxk, hxk]
  rw [hcongr, filter_beq_length]
  exact List.count_eq_one_of_mem hnd hmem

/-- Reflexivity of `is_match` on valid shortcuts whose modifiers do not
subsume one another. -/
theorem is_match_refl (s : Shortcut) (h : ValidS s)
    (hno : ∀ key ∈ s.modifiers, ∀ m2 ∈ s.modifiers, m2 ≠ key →
      subsumes m2 key = false) :
    s.is_match s = true := by
  obtain ⟨_, _, hdm, _⟩ := h
  rw [is_match_iff]
  exact ⟨rfl, fun key hk => filter_subsumes_self s.modifiers key hk hdm (hno key hk),
    rfl⟩

/-! ### Token-list lemmas for the parser -/

theorem normalizeTokens_ok_length :
    ∀ ts ks, normalizeTokens ts = .ok ks → ks.length = ts.length := by
  intro ts
  induction ts with
  | nil => intro ks h; cases h; rfl
  | cons t rest ih =>
    intro ks h
    unfold normalizeTokens at h
    cases hk : normalize_key t with
    | error e => rw [hk] at h; cases h
    | ok k =>
      rw [hk] at h
      cases hr : normalizeTokens rest with
      | error e => rw [hr] at h; cases h
      | ok ks2 =>
        rw [hr] at h
        cases h
        simpa using ih ks2 hr

theorem normalizeTokens_error_iff (ts : List (List Char)) :
    (∃ e, normalizeTokens ts = .error e) ↔
      ∃ t ∈ ts, ∃ e, normalize_key t = .error e := by
  induction ts with
  | nil =>
    constructor
    · rintro ⟨e, h⟩; cases h
    · rintro ⟨t, ht, _⟩; cases ht
  | cons t rest ih =>
    constructor
    · rintro ⟨e, h⟩
      unfold normalizeTokens at h
      cases hk : normalize_key t with
      | error e2 => exact ⟨t, by simp, e2, hk⟩
      | ok k =>
        rw [hk] at h
        cases hr : normalizeTokens rest with
        | error e2 =>
          rcases ih.mp ⟨e2, hr⟩ with ⟨t2, ht2, he2⟩
          exact ⟨t2, by simp [ht2], he2⟩
        | ok ks => rw [hr] at h; cases h
    · rintro ⟨t2, ht2, e2, he2⟩
      rcases List.mem_cons.mp ht2 with h1 | h1
      · subst h1
        exact ⟨e2, by unfold normalizeTokens; rw [he2]⟩
      · unfold normalizeTokens
        cases hk : normalize_key t with
        | error e3 => exact ⟨e3, rfl⟩
        | ok k =>
          rcases ih.mpr ⟨t2, h1, e2, he2⟩ with ⟨e3, he3⟩
          exact ⟨e3, by rw [he3]⟩

/-! ### Dispatch-scan lemmas -/

/-- When the bound reports are pairwise distinct, the scan of
`filter_shortcut` is determined by any one binding matching the snapshot
report: the callback of exactly that binding, unless the modifier-transition
guard suppresses it. -/
theorem findShortcut_unique (bindings : List (ID × Shortcut)) (usb : List Nat)
    (keyid : VirtualKeyId) (id : ID) (sc : Shortcut)
    (hpw : List.Pairwise (fun p q => p.2.usb_input ≠ q.2.usb_input) bindings)
    (hmem : (id, sc) ∈ bindings) (hm : sc.is_input_match usb = true) :
    findShortcut bindings usb keyid =
      if sc.has_modifier && sc.has_normal_key && keyid.is_modifier then none
      else some id := by
  induction bindings with
  | nil => cases hmem
  | cons hd rest ih =>
    obtain ⟨id0, sc0⟩ := hd
    rcases List.mem_cons.mp hmem with h1 | h1
    · cases h1
      unfold findShortcut
      rw [if_pos hm]
    · have hne : sc0.usb_input ≠ sc.usb_input :=
        (List.pairwise_cons.mp hpw).1 (id, sc) h1
      have hm0 : sc0.is_input_match usb = false := by
        unfold Shortcut.is_input_match at hm ⊢
        rw [beq_iff_eq] at hm
        rw [beq_eq_false_iff_ne, ← hm]
        exact hne
      unfold findShortcut
      rw [hm0]
      simp only [Bool.false_eq_true, if_false]
      exact ih (List.pairwise_cons.mp hpw).2 h1

/-! ### Trigger-gate lemmas -/

theorem triggerGateStep_eq (required window c p now : Nat) :
    triggerGateStep required window ⟨c, p⟩ now =
      if c = 0 ∨ now - p < window then
        (if required ≤ c + 1 then (⟨0, now⟩, true) else (⟨c + 1, now⟩, false))
      else
        (if required ≤ 1 then (⟨0, now⟩, true) else (⟨1, now⟩, false)) := by
  by_cases h1 : c = 0 ∨ now - p < window
  · by_cases h2 : required ≤ c + 1 <;>
      simp [triggerGateStep, h1, h2, ge_iff_le]
  · by_cases h2 : required ≤ 1 <;>
      simp [triggerGateStep, h1, h2, ge_iff_le]

theorem triggerGateRun_nil (required window : Nat) (st : ShortcutTriggerInfo) :
    triggerGateRun required window st [] = (st, []) := rfl

theorem triggerGateRun_cons (required window : Nat)
    (st : ShortcutTriggerInfo) (t : Nat) (ts : List Nat) :
    triggerGateRun required window st (t :: ts) =
      ((triggerGateRun required window
          (triggerGateStep required window st t).1 ts).1,
       (triggerGateStep required window st t).2 ::
       (triggerGateRun required window
          (triggerGateStep required window st t).1 ts).2) := rfl

/-- Mid-sequence progress of the gate: from a live counter `c`, a chain of
firings with gaps inside the window, sized to complete the sequence, stays
silent until the last firing, which invokes and resets. -/
theorem triggerGateRun_progress (required window : Nat) (ts : List Nat) :
    ∀ c p, 1 ≤ c → c + ts.length = required → ts ≠ [] →
      List.Chain' (fun a b => a ≤ b ∧ b - a < window) (p :: ts) →
      (triggerGateRun required window ⟨c, p⟩ ts).2 =
        List.replicate (ts.length - 1) false ++ [true] ∧
      (triggerGateRun required window ⟨c, p⟩ ts).1.trigger = 0 := by
  induction ts with
  | nil => intro c p _ _ hne _; exact absurd rfl hne
  | cons u rest ih =>
    intro c p hc hlen _ hchain
    have hgap : u - p < window := (List.chain'_cons.mp hchain).1.2
    cases rest with
    | nil =>
      have hreq : c + 1 = required := by simpa using hlen
      have hstep : triggerGateStep required window ⟨c, p⟩ u = (⟨0, u⟩, true) := by
        rw [triggerGateStep_eq, if_pos (Or.inr hgap), if_pos (by omega)]
      rw [triggerGateRun_cons, hstep]
      simp [triggerGateRun_nil]
    | cons v tl =>
      have hlt : c + 1 < required := by
        simp only [List.length_cons] at hlen; omega
      have hstep : triggerGateStep required window ⟨c, p⟩ u =
          (⟨c + 1, u⟩, false) := by
        rw [triggerGateStep_eq, if_pos (Or.inr hgap), if_neg (by omega)]
      have hrest := ih (c + 1) u (by omega)
        (by simp only [List.length_cons] at hlen ⊢; omega)
        (by simp) (List.chain'_cons.mp hchain).2
      rw [triggerGateRun_cons, hstep]
      simp only
      refine ⟨?_, hrest.2⟩
      rw [hrest.1]
      simp [List.replicate_succ]

/-- A parsed shortcut holds at least one key. -/
theorem from_str_nonempty (inp : List Char) (s : Shortcut)
    (h : Shortcut.from_str inp = .ok s) :
    s.modifiers ++ s.normal_keys ≠ [] := by
  unfold Shortcut.from_str at h
  cases hn : normalizeTokens (splitPlus (trim inp)) with
  | error e => rw [hn] at h; cases h
  | ok ks =>
    rw [hn] at h
    replace h : Shortcut.new ks = .ok s := h
    unfold Shortcut.new at h
    by_cases he : ks.isEmpty
    · rw [if_pos he] at h; cases h
    · rw [if_neg he] at h
      cases h
      have hne : ks ≠ [] := by simpa using he
      rcases foldl_set_key_nonempty ks Shortcut.empty hne with hd | hd <;>
        · intro hc
          rcases List.append_eq_nil.mp hc with ⟨h1, h2⟩
          first
          | exact hd h1
          | exact hd h2

/-! ### Claim theorems -/

/-- C3: `is_match` holds exactly when the modifier counts are equal, each
`self` modifier is subsumed-matched by exactly one `other` modifier
(`M'.bits & !M.bits == 0`), and the normal-key lists are equal element by
element; concretely `parse("Control+A").is_match(parse("ControlLeft+A"))` is
true while the reverse is false. -/
theorem C3_is_match_characterization :
    (∀ a b : Shortcut, a.is_match b = true ↔
      (a.modifiers.length = b.modifiers.length ∧
       (∀ key ∈ a.modifiers,
          (b.modifiers.filter (fun okey => subsumes okey key)).length = 1) ∧
       a.normal_keys = b.normal_keys)) ∧
    (∀ s1 s2 : Shortcut,
      Shortcut.from_str ("Control+A".data) = .ok s1 →
      Shortcut.from_str ("ControlLeft+A".data) = .ok s2 →
      s1.is_match s2 = true ∧ s2.is_match s1 = false) := by
  refine ⟨is_match_iff, ?_⟩
  intro s1 s2 h1 h2
  have e1 : (⟨[.Control], [.UsA]⟩ : Shortcut) = s1 := by
    have hp : Shortcut.from_str ("Control+A".data) =
        .ok (⟨[.Control], [.UsA]⟩ : Shortcut) := by decide
    rw [hp] at h1
    cases h1
    rfl
  have e2 : (⟨[.ControlLeft], [.UsA]⟩ : Shortcut) = s2 := by
    have hp : Shortcut.from_str ("ControlLeft+A".data) =
        .ok (⟨[.ControlLeft], [.UsA]⟩ : Shortcut) := by decide
    rw [hp] at h2
    cases h2
    rfl
  rw [← e1, ← e2]
  exact ⟨by decide, by decide⟩

/-- C3 witness: the characterization applied to the two concrete parses. -/
theorem C3_witness :
    Shortcut.is_match ⟨[.Control], [.UsA]⟩ ⟨[.ControlLeft], [.UsA]⟩ = true ∧
    Shortcut.is_match ⟨[.ControlLeft], [.UsA]⟩ ⟨[.Control], [.UsA]⟩ = false :=
  C3_is_match_characterization.2 ⟨[.Control], [.UsA]⟩ ⟨[.ControlLeft], [.UsA]⟩
    (by decide) (by decide)

/-- C6: the worker keyboard translation drops the message exactly when the
(key, state) transition leaves the aggregate unchanged, and an emitted event
carries the post-update aggregate as its snapshot; concretely a repeated press
of an already-pressed key is dropped. -/
theorem C6_translate :
    (∀ (st : Aggregate) (keyid : VirtualKeyId) (wm : Nat),
      ((translate_msg st keyid wm).1 = none ↔
        updateKey st keyid (keyStateOfWm wm) = st) ∧
      (translate_msg st keyid wm).2 = updateKey st keyid (keyStateOfWm wm) ∧
      (∀ ev, (translate_msg st keyid wm).1 = some ev →
        ev = .KeyboardEvent (some ⟨keyid, keyStateOfWm wm,
          some (updateKey st keyid (keyStateOfWm wm))⟩))) ∧
    (translate_msg [.UsA] .UsA WM_KEYDOWN).1 = none := by
  refine ⟨?_, by decide⟩
  intro st keyid wm
  unfold translate_msg
  by_cases h : st = updateKey st keyid (keyStateOfWm wm)
  · rw [if_pos h]
    refine ⟨⟨fun _ => h.symm, fun _ => rfl⟩, rfl, ?_⟩
    intro ev hev
    exact absurd hev (by simp)
  · rw [if_neg h]
    refine ⟨⟨fun hc => absurd hc (by simp), fun hc => absurd hc.symm h⟩, rfl, ?_⟩
    intro ev hev
    replace hev : some (EventType.KeyboardEvent (some ⟨keyid, keyStateOfWm wm,
        some (updateKey st keyid (keyStateOfWm wm))⟩)) = some ev := hev
    injection hev with h2
    rw [← h2]

/-- C6 witness: translation of a fresh press of `A` emits the event with the
post-update snapshot `[A]`. -/
theorem C6_witness :
    (EventType.KeyboardEvent (some ⟨.UsA, .Pressed, some [.UsA]⟩)) =
      .KeyboardEvent (some ⟨.UsA, keyStateOfWm WM_KEYDOWN,
        some (updateKey [] .UsA (keyStateOfWm WM_KEYDOWN))⟩) :=
  (C6_translate.1 [] .UsA WM_KEYDOWN).2.2 _ (by decide)

/-- C7: parsing fails exactly when the input is empty or some `'+'`-separated
token is unknown after normalization; otherwise the shortcut is built from the
normalized tokens.  The aliases map `Ctrl→Control`, `Menu→Alt`, `Option→Alt`,
`Win→Meta`, `Cmd→Meta`, `Command→Meta`, and a single character `X` becomes
`UsX`; the empty string and a string with an unknown token both fail. -/
theorem C7_parse_errors :
    (∀ s : List Char,
      (∃ e, Shortcut.from_str s = .error e) ↔
        (s = [] ∨ ∃ t ∈ splitPlus (trim s), ∃ e, normalize_key t = .error e)) ∧
    (∀ s ks, normalizeTokens (splitPlus (trim s)) = .ok ks →
      Shortcut.from_str s = .ok (ks.foldl Shortcut.set_key Shortcut.empty)) ∧
    normalize_key ("Ctrl".data) = .ok .Control ∧
    normalize_key ("Menu".data) = .ok .Alt ∧
    normalize_key ("Option".data) = .ok .Alt ∧
    normalize_key ("Win".data) = .ok .Meta ∧
    normalize_key ("Cmd".data) = .ok .Meta ∧
    normalize_key ("Command".data) = .ok .Meta ∧
    normalize_key ("A".data) = .ok .UsA ∧
    Shortcut.from_str [] = .error ("Invalid key: ".data) ∧
    (∃ e, Shortcut.from_str ("Ctrl+Foo".data) = .error e) := by
  refine ⟨?_, ?_, by decide, by decide, by decide, by decide, by decide,
    by decide, by decide, by decide, ⟨"Invalid key: Foo".data, by decide⟩⟩
  · intro s
    constructor
    · rintro ⟨e, h⟩
      right
      unfold Shortcut.from_str at h
      cases hn : normalizeTokens (splitPlus (trim s)) with
      | error e2 => exact (normalizeTokens_error_iff _).mp ⟨e2, hn⟩
      | ok ks =>
        rw [hn] at h
        replace h : Shortcut.new ks = .error e := h
        unfold Shortcut.new at h
        have hlen := normalizeTokens_ok_length _ _ hn
        have hsp := splitPlus_ne_nil (trim s)
        have hne : ks ≠ [] := by
          intro hc
          rw [hc] at hlen
          exact hsp (List.eq_nil_of_length_eq_zero hlen.symm)
        rw [if_neg (by simpa using hne)] at h
        cases h
    · intro h
      have htok : ∃ t ∈ splitPlus (trim s), ∃ e, normalize_key t = .error e := by
        rcases h with h | h
        · subst h
          exact ⟨[], by decide, "Invalid key: ".data, by decide⟩
        · exact h
      rcases (normalizeTokens_error_iff _).mpr htok with ⟨e, he⟩
      refine ⟨e, ?_⟩
      unfold Shortcut.from_str
      rw [he]
  · intro s ks h
    unfold Shortcut.from_str
    rw [h]
    show Shortcut.new ks = .ok (ks.foldl Shortcut.set_key Shortcut.empty)
    unfold Shortcut.new
    have hlen := normalizeTokens_ok_length _ _ h
    have hsp := splitPlus_ne_nil (trim s)
    have hne : ks ≠ [] := by
      intro hc
      rw [hc] at hlen
      exact hsp (List.eq_nil_of_length_eq_zero hlen.symm)
    rw [if_neg (by simpa using hne)]

/-- C7 witness: the token pipeline applied to `"Ctrl+A"`. -/
theorem C7_witness :
    Shortcut.from_str ("Ctrl+A".data) =
      .ok ([VirtualKeyId.Control, VirtualKeyId.UsA].foldl
        Shortcut.set_key Shortcut.empty) :=
  C7_parse_errors.2.1 ("Ctrl+A".data) [.Control, .UsA] (by decide)

/-- C8: every parsed shortcut equals itself under the coded `==` and parses
back from its rendering to an equal shortcut; `==` is order-insensitive on the
modifier multiset, demands the exact modifier identities, and demands the
normal-key lists equal in order. -/
theorem C8_eq_roundtrip :
    (∀ (inp : List Char) (s : Shortcut), Shortcut.from_str inp = .ok s →
      Shortcut.eq s s = true ∧ Shortcut.from_str s.display = .ok s) ∧
    (∀ a b : Shortcut, a.modifiers.Nodup →
      (Shortcut.eq a b = true ↔
        (a.modifiers.Perm b.modifiers ∧ a.normal_keys = b.normal_keys))) ∧
    Shortcut.eq ⟨[.ControlLeft], []⟩ ⟨[.Control], []⟩ = false ∧
    Shortcut.eq ⟨[.Control], [.UsC, .UsV]⟩ ⟨[.Control], [.UsV, .UsC]⟩ = false := by
  refine ⟨?_, eq_iff_perm, by decide, by decide⟩
  intro inp s h
  have hv := valid_from_str inp s h
  exact ⟨eq_refl_of_valid s hv,
    from_str_display s hv (from_str_nonempty inp s h)⟩

/-- C8 witness: reflexivity, round-trip and the multiset characterization at
the parse of `"Ctrl+A"`. -/
theorem C8_witness :
    (Shortcut.eq ⟨[.Control], [.UsA]⟩ ⟨[.Control], [.UsA]⟩ = true ∧
      Shortcut.from_str (Shortcut.display ⟨[.Control], [.UsA]⟩) =
        .ok ⟨[.Control], [.UsA]⟩) ∧
    (Shortcut.eq ⟨[.Control], [.UsA]⟩ ⟨[.Control], [.UsA]⟩ = true ↔
      (List.Perm [VirtualKeyId.Control] [VirtualKeyId.Control] ∧
        [VirtualKeyId.UsA] = [VirtualKeyId.UsA])) :=
  ⟨C8_eq_roundtrip.1 ("Ctrl+A".data) ⟨[.Control], [.UsA]⟩ (by decide),
   C8_eq_roundtrip.2.1 ⟨[.Control], [.UsA]⟩ ⟨[.Control], [.UsA]⟩ (by decide)⟩

/-- C9 counterexample: a shortcut produced by `set_key` that mixes the generic
`Control` with the sided `ControlLeft` fails to match the aggregate holding
exactly its own keys, refuting the claim for such shortcuts. -/
theorem C9_counterexample :
    Shortcut.new [.Control, .ControlLeft, .UsA] =
      .ok ⟨[.Control, .ControlLeft], [.UsA]⟩ ∧
    Shortcut.is_match ⟨[.Control, .ControlLeft], [.UsA]⟩
      (Shortcut.into_aggregate ⟨[.Control, .ControlLeft], [.UsA]⟩) = false := by
  decide

/-- C9 (amended): a valid shortcut none of whose modifiers is subsumed by a
distinct fellow modifier (no generic together with a sided modifier of the
same family) matches the aggregate holding exactly its own keys. -/
theorem C9_match_own_aggregate :
    ∀ s : Shortcut, ValidS s →
      (∀ key ∈ s.modifiers, ∀ m2 ∈ s.modifiers, m2 ≠ key →
        subsumes m2 key = false) →
      s.is_match s.into_aggregate = true := by
  intro s h hno
  rw [into_aggregate_eq_self s h]
  exact is_match_refl s h hno

/-- C9 witness: `Control+A` matches its own aggregate. -/
theorem C9_witness :
    Shortcut.is_match ⟨[.Control], [.UsA]⟩
      (Shortcut.into_aggregate ⟨[.Control], [.UsA]⟩) = true :=
  C9_match_own_aggregate ⟨[.Control], [.UsA]⟩ (by decide) (by decide)

/-- C10: `set_key` and `remove_key` preserve the representation invariant
(modifier-classified keys only in `modifiers`, normal keys only in
`normal_keys`, no duplicates), new normal keys are appended at the end and
existing ones leave the shortcut unchanged (first-insertion order), `new` and
`from_str` establish the invariant, and `new` rejects the empty key list. -/
theorem C10_invariants :
    (∀ (s : Shortcut) (k : VirtualKeyId), ValidS s → ValidS (s.set_key k)) ∧
    (∀ (s : Shortcut) (k : VirtualKeyId), ValidS s → ValidS (s.remove_key k)) ∧
    (∀ (s : Shortcut) (k : VirtualKeyId), k.is_modifier = false →
      k ∉ s.normal_keys → (s.set_key k).normal_keys = s.normal_keys ++ [k]) ∧
    (∀ (s : Shortcut) (k : VirtualKeyId), k.is_modifier = false →
      k ∈ s.normal_keys → s.set_key k = s) ∧
    (∀ (ks : List VirtualKeyId) (s : Shortcut),
      Shortcut.new ks = .ok s → ValidS s) ∧
    (∀ (inp : List Char) (s : Shortcut),
      Shortcut.from_str inp = .ok s → ValidS s) ∧
    Shortcut.new [] = .error ("Empty keys".data) := by
  refine ⟨valid_set_key, ?_, ?_, ?_, valid_new, valid_from_str, by decide⟩
  · intro s k h
    obtain ⟨hm, hn, hdm, hdn⟩ := h
    unfold Shortcut.remove_key
    split
    · exact ⟨fun x hx => hm x (List.mem_of_mem_filter hx), hn,
        List.Nodup.filter _ hdm, hdn⟩
    · exact ⟨hm, fun x hx => hn x (List.mem_of_mem_filter hx), hdm,
        List.Nodup.filter _ hdn⟩
  · intro s k hk hmem
    rw [set_key_of_normal s k hk, if_neg (by simpa using hmem)]
  · intro s k hk hmem
    rw [set_key_of_normal s k hk, if_pos (by simpa using hmem)]

/-- C10 witness: the invariant clauses applied at concrete shortcuts. -/
theorem C10_witness :
    ValidS (Shortcut.set_key Shortcut.empty .UsA) ∧
    ValidS (Shortcut.remove_key Shortcut.empty .UsA) ∧
    (Shortcut.set_key ⟨[], [.UsC]⟩ .UsV).normal_keys = [.UsC] ++ [.UsV] ∧
    ValidS ⟨[.Control], [.UsA]⟩ :=
  ⟨C10_invariants.1 Shortcut.empty .UsA (by decide),
   C10_invariants.2.1 Shortcut.empty .UsA (by decide),
   C10_invariants.2.2.1 ⟨[], [.UsC]⟩ .UsV (by decide) (by decide),
   C10_invariants.2.2.2.2.1 [.Control, .UsA] ⟨[.Control], [.UsA]⟩ (by decide)⟩

/-- C1 counterexample: a pressed keyboard event whose snapshot satisfies the
binding's `is_match` (and is not caught by the modifier-transition guard)
still invokes no callback, because the dispatcher matches by usb-report
equality, not `is_match`. -/
theorem C1_counterexample :
    Shortcut.is_match ⟨[.Control], [.UsA]⟩
      (aggShortcut [.ControlLeft, .UsA]) = true ∧
    (Shortcut.has_modifier ⟨[.Control], [.UsA]⟩ &&
     Shortcut.has_normal_key ⟨[.Control], [.UsA]⟩ &&
     VirtualKeyId.is_modifier .UsA) = false ∧
    (on_event [] [(1, ⟨[.Control], [.UsA]⟩)]
      (.KeyboardEvent (some ⟨.UsA, .Pressed, some [.ControlLeft, .UsA]⟩))).2 =
      none := by
  decide

/-- C1 (amended): for a pressed keyboard event with snapshot `ks`, when the
bound reports are pairwise distinct (as `add_global_shortcut` guarantees) and
some binding's usb input report equals the snapshot's, that binding's
trigger-wrapped callback is the one invoked — unless its shortcut has both a
modifier and a normal key while the transition key is itself a modifier, in
which case nothing is invoked; released keyboard events, events without a
snapshot, payload-less keyboard events and mouse events never invoke a
shortcut callback. -/
theorem filter_shortcut_pressed (bindings : List (ID × Shortcut))
    (key : VirtualKeyId) (ks : Aggregate) :
    filter_shortcut bindings (.KeyboardEvent (some ⟨key, .Pressed, some ks⟩)) =
      findShortcut bindings (usbReport ks) key := rfl

theorem filter_shortcut_released (bindings : List (ID × Shortcut))
    (key : VirtualKeyId) (oks : Option Aggregate) :
    filter_shortcut bindings (.KeyboardEvent (some ⟨key, .Released, oks⟩)) =
      none := rfl

theorem filter_shortcut_no_snapshot (bindings : List (ID × Shortcut))
    (key : VirtualKeyId) (st : KeyState) :
    filter_shortcut bindings (.KeyboardEvent (some ⟨key, st, none⟩)) = none := by
  cases st <;> rfl

theorem C1_dispatch :
    (∀ (subs : List (ID × EventType)) (bindings : List (ID × Shortcut))
       (id : ID) (sc : Shortcut) (key : VirtualKeyId) (ks : Aggregate),
      List.Pairwise (fun p q => p.2.usb_input ≠ q.2.usb_input) bindings →
      (id, sc) ∈ bindings →
      sc.is_input_match (usbReport ks) = true →
      (on_event subs bindings (.KeyboardEvent (some ⟨key, .Pressed, some ks⟩))).2 =
        if sc.has_modifier && sc.has_normal_key && key.is_modifier then none
        else some id) ∧
    (∀ subs bindings key ks,
      (on_event subs bindings
        (.KeyboardEvent (some ⟨key, .Released, some ks⟩))).2 = none) ∧
    (∀ subs bindings key st,
      (on_event subs bindings (.KeyboardEvent (some ⟨key, st, none⟩))).2 = none) ∧
    (∀ subs bindings mi, (on_event subs bindings (.MouseEvent mi)).2 = none) ∧
    (∀ subs bindings, (on_event subs bindings (.KeyboardEvent none)).2 = none) := by
  refine ⟨?_, ?_, ?_, ?_, ?_⟩
  · intro subs bindings id sc key ks hpw hmem hm
    show filter_shortcut bindings (.KeyboardEvent (some ⟨key, .Pressed, some ks⟩)) = _
    rw [filter_shortcut_pressed]
    exact findShortcut_unique bindings (usbReport ks) key id sc hpw hmem hm
  · intro subs bindings key ks
    exact filter_shortcut_released bindings key (some ks)
  · intro subs bindings key st
    exact filter_shortcut_no_snapshot bindings key st
  · intro subs bindings mi
    rfl
  · intro subs bindings
    rfl

/-- C1 witness: with `ControlLeft+A` bound, pressing `A` with snapshot
`{ControlLeft, A}` invokes that binding's callback (the guard is off because
`A` is not a modifier). -/
theorem C1_witness :
    (on_event [] [(1, ⟨[.ControlLeft], [.UsA]⟩)]
      (.KeyboardEvent (some ⟨.UsA, .Pressed, some [.ControlLeft, .UsA]⟩))).2 =
      some 1 := by
  have happ := C1_dispatch.1 [] [(1, ⟨[.ControlLeft], [.UsA]⟩)] 1
    ⟨[.ControlLeft], [.UsA]⟩ .UsA [.ControlLeft, .UsA]
    (by decide) (by decide) (by decide)
  simpa using happ

/-- C2: as coded, `recheck_hook` overwrites the keyboard flag computed from
the subscriptions with `shortcut_map.len() > 0`, so a keyboard (or `All`)
subscription without any bound shortcut requests no keyboard hook — against
the specified disjunction; the mouse flag does follow the specification. -/
theorem C2_recheck_bug :
    recheck_flags [(1, .KeyboardEvent none)] 0 = (false, false) ∧
    recheck_flags_spec [(1, .KeyboardEvent none)] 0 = (true, false) ∧
    (∀ (subs : List (ID × EventType)) (shortcutCount : Nat),
      (recheck_flags subs shortcutCount).1 = decide (shortcutCount > 0)) ∧
    (∀ (subs : List (ID × EventType)) (shortcutCount : Nat),
      (recheck_flags subs shortcutCount).2 =
        (recheck_flags_spec subs shortcutCount).2) := by
  refine ⟨by decide, by decide, fun _ _ => rfl, ?_⟩
  intro subs shortcutCount
  show (recheckLoop (subs.map (fun p => p.2)) false false).2 = _
  unfold recheck_flags_spec
  have hgen : ∀ (sels : List EventType) (kb ms : Bool),
      (recheckLoop sels kb ms).2 =
        (ms || sels.any (fun sel =>
          match sel with
          | .MouseEvent _ => true
          | .All => true
          | _ => false)) := by
    intro sels
    induction sels with
    | nil => intro kb ms; simp [recheckLoop]
    | cons sel rest ih =>
      intro kb ms
      cases sel with
      | All => simp [recheckLoop]
      | KeyboardEvent i =>
        by_cases hms : ms
        · subst hms; simp [recheckLoop]
        · replace hms : ms = false := by simpa using hms
          subst hms
          simp [recheckLoop, ih]
      | MouseEvent i =>
        by_cases hkb : kb
        · subst hkb; simp [recheckLoop]
        · replace hkb : kb = false := by simpa using hkb
          subst hkb
          simp [recheckLoop, ih]
  rw [hgen]
  simp only [Bool.false_or]
  have hmap : ∀ l : List (ID × EventType),
      ((l.map (fun p => p.2)).any fun sel =>
          match sel with
          | EventType.MouseEvent _ => true
          | EventType.All => true
          | _ => false) =
        (l.any fun p =>
          match p.2 with
          | EventType.MouseEvent _ => true
          | EventType.All => true
          | _ => false) := by
    intro l
    induction l with
    | nil => rfl
    | cons x xs ih => simp only [List.map_cons, List.any_cons, ih]
  rw [hmap]

/-- C4 counterexample: binding `Control+A` after `ControlLeft+ControlRight+A`
is rejected as a duplicate although neither compares equal (`==`) to the
other — the duplicate check compares usb input reports, not `==`. -/
theorem C4_counterexample :
    Shortcut.new [.ControlLeft, .ControlRight, .UsA] =
      .ok ⟨[.ControlLeft, .ControlRight], [.UsA]⟩ ∧
    Shortcut.from_str ("Control+A".data) = .ok ⟨[.Control], [.UsA]⟩ ∧
    Shortcut.eq ⟨[.ControlLeft, .ControlRight], [.UsA]⟩
      ⟨[.Control], [.UsA]⟩ = false ∧
    Shortcut.eq ⟨[.Control], [.UsA]⟩
      ⟨[.ControlLeft, .ControlRight], [.UsA]⟩ = false ∧
    (add_global_shortcut [(1, ⟨[.ControlLeft, .ControlRight], [.UsA]⟩)] 2
        ⟨[.Control], [.UsA]⟩).2 =
      .error ("Shortcut already exists".data) := by
  decide

/-- C4 (amended): `add_global_shortcut` fails with the duplicate error exactly
when some bound shortcut's usb input report matches the new shortcut's; on
failure the table is unchanged, on success the binding is appended under the
fresh ID, and once every report-matching binding is removed by
`del_event_by_id`, re-binding the same shortcut succeeds with a fresh ID. -/
theorem C4_duplicate :
    (∀ (table : List (ID × Shortcut)) (id : ID) (sc : Shortcut),
      ((add_global_shortcut table id sc).2 =
          .error ("Shortcut already exists".data) ↔
        ∃ p ∈ table, p.2.is_input_match sc.usb_input = true)) ∧
    (∀ (table : List (ID × Shortcut)) (id : ID) (sc : Shortcut),
      (∃ p ∈ table, p.2.is_input_match sc.usb_input = true) →
      (add_global_shortcut table id sc).1 = table) ∧
    (∀ (table : List (ID × Shortcut)) (id : ID) (sc : Shortcut),
      (¬ ∃ p ∈ table, p.2.is_input_match sc.usb_input = true) →
      add_global_shortcut table id sc = (table ++ [(id, sc)], .ok id)) ∧
    (∀ (subs : List (ID × EventType)) (table : List (ID × Shortcut))
       (id1 id2 : ID) (sc : Shortcut),
      (∀ p ∈ table, p.2.is_input_match sc.usb_input = true → p.1 = id1) →
      (add_global_shortcut (del_event_by_id subs table id1).2 id2 sc).2 =
        .ok id2) := by
  refine ⟨?_, ?_, ?_, ?_⟩
  · intro table id sc
    unfold add_global_shortcut
    by_cases h : table.any (fun p => p.2.is_input_match sc.usb_input)
    · rw [if_pos h]
      constructor
      · intro _
        exact List.any_eq_true.mp h
      · intro _
        rfl
    · rw [if_neg h]
      constructor
      · intro hc; cases hc
      · intro hc
        exact absurd (List.any_eq_true.mpr hc) h
  · intro table id sc h
    unfold add_global_shortcut
    rw [if_pos (List.any_eq_true.mpr h)]
  · intro table id sc h
    unfold add_global_shortcut
    rw [if_neg (fun hc => h (List.any_eq_true.mp hc))]
  · intro subs table id1 id2 sc h
    unfold add_global_shortcut
    rw [if_neg]
    intro hc
    rcases List.any_eq_true.mp hc with ⟨p, hp, hmatch⟩
    unfold del_event_by_id at hp
    simp only [List.mem_filter] at hp
    have := h p hp.1 hmatch
    rw [this] at hp
    simpa using hp.2

/-- C4 witness: the duplicate test, no-change-on-failure and
delete-then-rebind clauses at a concrete table. -/
theorem C4_witness :
    ((add_global_shortcut [(1, ⟨[.Control], [.UsA]⟩)] 2
        ⟨[.Control], [.UsA]⟩).1 = [(1, ⟨[.Control], [.UsA]⟩)]) ∧
    (add_global_shortcut
        (del_event_by_id [] [(1, ⟨[.Control], [.UsA]⟩)] 1).2 2
        ⟨[.Control], [.UsA]⟩).2 = .ok 2 :=
  ⟨C4_duplicate.2.1 [(1, ⟨[.Control], [.UsA]⟩)] 2 ⟨[.Control], [.UsA]⟩
      ⟨((1 : ID), (⟨[.Control], [.UsA]⟩ : Shortcut)), by simp, by decide⟩,
   C4_duplicate.2.2.2 [] [(1, ⟨[.Control], [.UsA]⟩)] 1 2
      ⟨[.Control], [.UsA]⟩ (by decide)⟩

/-- C5: starting from a reset gate, a sequence of exactly `required` firings
whose successive gaps are each below the window invokes the callback exactly
once, at the last firing, and resets the counter to zero; a firing with a
live counter whose gap reaches the window restarts the count at one and
invokes only when `required` equals that restarted count. -/
theorem C5_trigger_gate :
    (∀ (required window p : Nat) (ts : List Nat),
      1 ≤ required → ts.length = required → ts ≠ [] →
      List.Chain' (fun a b => a ≤ b ∧ b - a < window) ts →
      (triggerGateRun required window ⟨0, p⟩ ts).2 =
        List.replicate (required - 1) false ++ [true] ∧
      (triggerGateRun required window ⟨0, p⟩ ts).1.trigger = 0) ∧
    (∀ (required window : Nat) (st : ShortcutTriggerInfo) (now : Nat),
      1 ≤ required → st.trigger ≠ 0 → window ≤ now - st.last_trigger_time →
      triggerGateStep required window st now =
        if required = 1 then (⟨0, now⟩, true) else (⟨1, now⟩, false)) := by
  constructor
  · intro required window p ts hreq hlen hne hchain
    cases ts with
    | nil => exact absurd rfl hne
    | cons t rest =>
      have hstep0 : triggerGateStep required window ⟨0, p⟩ t =
          if required ≤ 1 then (⟨0, t⟩, true) else (⟨1, t⟩, false) := by
        rw [triggerGateStep_eq, if_pos (Or.inl rfl)]
      by_cases h1 : required = 1
      · subst h1
        have hrest : rest = [] := by
          simp only [List.length_cons] at hlen
          exact List.eq_nil_of_length_eq_zero (by omega)
        subst hrest
        have hstep : triggerGateStep 1 window ⟨0, p⟩ t = (⟨0, t⟩, true) := by
          rw [hstep0, if_pos (le_refl 1)]
        rw [triggerGateRun_cons, hstep]
        simp [triggerGateRun_nil]
      · have h2 : 2 ≤ required := by omega
        have hrest_len : rest.length = required - 1 := by
          simp only [List.length_cons] at hlen; omega
        have hrest_ne : rest ≠ [] := by
          intro hc
          rw [hc] at hrest_len
          simp at hrest_len
          omega
        have hstep : triggerGateStep required window ⟨0, p⟩ t =
            (⟨1, t⟩, false) := by
          rw [hstep0, if_neg (by omega)]
        have hprog := triggerGateRun_progress required window rest 1 t
          (le_refl 1) (by omega) hrest_ne hchain
        rw [triggerGateRun_cons, hstep]
        simp only
        refine ⟨?_, hprog.2⟩
        rw [hprog.1]
        have : required - 1 = (required - 2) + 1 := by omega
        rw [this, List.replicate_succ]
        have : rest.length - 1 = required - 2 := by omega
        rw [this]
        simp
  · intro required window st now hreq hlive hgap
    obtain ⟨c, p⟩ := st
    have hc : c ≠ 0 := hlive
    have hnot : ¬ (c = 0 ∨ now - p < window) := by
      push_neg
      exact ⟨hc, by simpa using hgap⟩
    rw [triggerGateStep_eq, if_neg hnot]
    by_cases h1 : required = 1
    · subst h1
      rw [if_pos (le_refl 1), if_pos rfl]
    · rw [if_neg (by omega), if_neg h1]

/-- C5 witness: a triple press at gaps of 200 ms inside a 400 ms window fires
exactly at the third press, and a late firing with a live counter restarts
silently. -/
theorem C5_witness :
    ((triggerGateRun 3 400 ⟨0, 0⟩ [500, 700, 900]).2 =
        List.replicate 2 false ++ [true] ∧
      (triggerGateRun 3 400 ⟨0, 0⟩ [500, 700, 900]).1.trigger = 0) ∧
    triggerGateStep 3 400 ⟨1, 100⟩ 600 =
      (if (3 : Nat) = 1 then (⟨0, 600⟩, true) else (⟨1, 600⟩, false)) :=
  ⟨C5_trigger_gate.1 3 400 0 [500, 700, 900] (by decide) (by decide)
      (by decide)
      (List.chain'_cons.mpr ⟨⟨by omega, by omega⟩,
        List.chain'_cons.mpr ⟨⟨by omega, by omega⟩,
          List.chain'_singleton 900⟩⟩),
   C5_trigger_gate.2 3 400 ⟨1, 100⟩ 600 (by decide) (by decide) (by decide)⟩

end KMHook
